import Mathlib

/-!
Shallow embedding of the framework-classification engine
(`src/tails/engine.ts`) of this repository.

TypeScript `Record<string, T>` objects are modelled as association lists
`List (String × T)` whose observable behaviour is key lookup
(`List.lookup`); property assignment is `recordInsert`, a prepended
binding that shadows older bindings of the same key under first-match
lookup, matching JS object semantics at the map level (the engine never
iterates its records).  Async functions returning `T` become pure functions returning
`T`; functions that can throw return `Except`.  The unbounded recursion of
`FrameworkMatcher.matchHelper` is embedded with an explicit fuel argument;
`searchFuel` (number of rule entries + 1) bounds the recursion depth of
every terminating run of the source.
-/

/-- An entry of the `dependencies` list of a `Framework` (engine.ts line 36). -/
structure Dependency where
  name : String
  version : Option String := none
deriving Repr, DecidableEq

/-- One entry of `requiredFiles`: `string | string[]` (engine.ts line 35). -/
inductive FileReq where
  | single (path : String)
  | oneOf (paths : List String)
deriving Repr, DecidableEq

/-- The `Framework` interface (engine.ts lines 22-37).  Optional fields
default to `none`/`[]`, mirroring absent properties. -/
structure Framework where
  name : String
  parent : String
  installCommand : Option String := none
  buildCommand : Option String := none
  devCommand : Option String := none
  vars : List (String × String) := []
  canEmbed : List String := []
  requiredFiles : List FileReq := []
  dependencies : List Dependency := []
deriving Repr, DecidableEq

/-- The `Codebase` interface (engine.ts lines 8-16); the command methods are
modelled as data fields. -/
structure Codebase where
  runtimeName : String
  frameworkName : String
  packageManagerInstallCommand : Option String := none
  installCommand : Option String := none
  buildCommand : Option String := none
  devCommand : Option String := none
deriving Repr, DecidableEq

/-- JS object spread `{...a, ...b}` on string records: a key of `b` shadows
the same key of `a`.  With first-match `List.lookup`, prepending `b` gives
exactly that shadowing. -/
def jsSpread (a b : List (String × String)) : List (String × String) :=
  b ++ a

/-- Embedding of `vars` (engine.ts lines 53-59): the loop runs `i` from the last index
down to `0` doing `vars = {...vars, ...frameworks[i].vars}`, so the
`foldr` step `jsSpread acc fw.vars` replays the iterations innermost-first
exactly as the source does. -/
def vars (frameworks : List Framework) : List (String × String) :=
  frameworks.foldr (fun fw acc => jsSpread acc fw.vars) []

/-- The accumulation loop of `detect` (engine.ts lines 68-77): `acc` is the
mutable `match` variable, the list holds the settled results of the runtime
detectors. -/
def detectLoop : List (Option Codebase) → Option Codebase → Except String (Option Codebase)
  | [], acc => Except.ok acc
  | res :: rest, acc =>
    match res with
    | none => detectLoop rest acc
    | some cb =>
      match acc with
      | some _ => Except.error "More than one runtime matched codebase"
      | none => detectLoop rest (some cb)

/-- Embedding of `detect` (engine.ts lines 66-79), parameterised by the list of results
the registered runtime detectors produced (the concrete detectors live in
`./node` and `./python`, outside the engine). -/
def detect (results : List (Option Codebase)) : Except String (Option Codebase) :=
  detectLoop results none

/-- A thrown JS `Error` with an optional `code` property (engine.ts lines
142-144 attach `code = "ENOENT"`). -/
structure FsError where
  message : String
  code : Option String := none
deriving Repr, DecidableEq

/-- Embedding of `MockFileSystem.exists` (engine.ts lines 137-139): the JS test is membership of `path` in the mock record. -/
def mockExists (mock : List (String × String)) (path : String) : Bool :=
  (List.lookup path mock).isSome

/-- Embedding of `MockFileSystem.read` (engine.ts lines 140-147): throws an Error with
`code = "ENOENT"` when the path is absent, otherwise resolves the mapped
content. -/
def mockRead (mock : List (String × String)) (path : String) : Except FsError String :=
  match List.lookup path mock with
  | none => Except.error { message := "file not found", code := some "ENOENT" }
  | some content => Except.ok content

/-- JS object property assignment `m[k] = v`.  The engine only ever reads
its records back through key lookup, so assignment is embedded as a
prepended binding: with first-match `List.lookup`, the newest binding for a
key shadows every older one, exactly as assignment overwrites. -/
def recordInsert (m : List (String × α)) (k : String) (v : α) : List (String × α) :=
  (k, v) :: m

/-- First constructor loop, name index (engine.ts line 162):
`this.frameworks[framework.name] = framework`. -/
def buildFrameworkMap (frameworks : List Framework) : List (String × Framework) :=
  frameworks.foldl (fun m f => recordInsert m f.name f) []

/-- First constructor loop, adjacency index (engine.ts lines 163-164):
`this.children[parent] = this.children[parent] || []` then `push(name)`. -/
def buildChildren (frameworks : List Framework) : List (String × List String) :=
  frameworks.foldl
    (fun c f => recordInsert c f.parent (((List.lookup f.parent c).getD []) ++ [f.name]))
    []

/-- State of a constructed `FrameworkMatcher` (engine.ts lines 151-173).
`fs.exists` is the only file-system operation the matcher uses, so the
capability is embedded as the pure predicate `fs`. -/
structure FrameworkMatcher where
  runtime : String
  fs : String → Bool
  dependencies : List (String × String)
  frameworkMap : List (String × Framework)
  children : List (String × List String)

/-- The `FrameworkMatcher` constructor (engine.ts lines 155-173): builds
both indexes from the full rule list, then the sanity check throws on the
first framework whose parent is neither the runtime nor a present key
(the message keeps the source's spelling). -/
def FrameworkMatcher.make (runtime : String) (fs : String → Bool)
    (dependencies : List (String × String)) (frameworks : List Framework) :
    Except String FrameworkMatcher :=
  match frameworks.find? (fun f =>
      f.parent != runtime && (List.lookup f.parent (buildFrameworkMap frameworks)).isNone) with
  | some f => Except.error ("Framework " ++ f.name ++ " has unkonwn parent " ++ f.parent)
  | none =>
    Except.ok
      { runtime := runtime, fs := fs, dependencies := dependencies,
        frameworkMap := buildFrameworkMap frameworks, children := buildChildren frameworks }

/-- JS truthiness of `this.dependencies[dep.name]` (engine.ts line 212):
an absent key and the empty string are both falsy. -/
def versionTruthy : Option String → Bool
  | none => false
  | some v => !(v == "")

/-- Dependency predicate of `matchHelper` (engine.ts lines 211-217): the
loop returns `[]` on the first dependency whose map entry is falsy; the
version is otherwise unused (`TODO: version matching`). -/
def dependencyPred (deps : List (String × String)) (fw : Framework) : Bool :=
  fw.dependencies.all (fun dep => versionTruthy (List.lookup dep.name deps))

/-- File predicate of `matchHelper` (engine.ts lines 218-229): a single
path must exist, an alternative set needs `some` of its paths to exist,
and `filesMatch.every` conjoins the entries. -/
def filePred (fs : String → Bool) (fw : Framework) : Bool :=
  fw.requiredFiles.all (fun fileOrSet =>
    match fileOrSet with
    | FileReq.single p => fs p
    | FileReq.oneOf ps => ps.any (fun p => fs p))

/-- Combined local predicate of a non-runtime node (engine.ts lines
210-230): dependencies first, then required files. -/
def localPred (m : FrameworkMatcher) (fw : Framework) : Bool :=
  dependencyPred m.dependencies fw && filePred m.fs fw

/-- The child list of a node, `this.children[framework] || []` (engine.ts line 234). -/
def childrenOf (m : FrameworkMatcher) (name : String) : List String :=
  (List.lookup name m.children).getD []

/-- Embedding of `matchHelper` (engine.ts lines 209-250) with explicit fuel.  For a
non-runtime name the node's predicates gate the whole subtree; the child
results are flattened in child-list order; at the runtime the flattened
list is returned as is, otherwise an empty list yields the singleton chain
`[[fw]]` and a non-empty one gets `fw` appended to every chain.  A `none`
lookup cannot occur on names drawn from the children index (the source
would fail there); fuel `0` cuts off only runs that diverge in the source. -/
def FrameworkMatcher.matchHelper (m : FrameworkMatcher) : Nat → String → List (List Framework)
  | 0, _ => []
  | fuel+1, framework =>
    if framework == m.runtime then
      (childrenOf m framework).flatMap (fun c => m.matchHelper fuel c)
    else
      match List.lookup framework m.frameworkMap with
      | none => []
      | some fw =>
        if localPred m fw then
          let paths := (childrenOf m framework).flatMap (fun c => m.matchHelper fuel c)
          if paths.isEmpty then [[fw]]
          else paths.map (fun head => head ++ [fw])
        else []

/-- Embedding of `supercedes` (engine.ts lines 253-265): some framework of `found`
declares in `canEmbed` the name of some framework of `have`.  An absent
`canEmbed` is the empty list (the source skips it; an empty array is
iterated with no effect, which is the same). -/
def supercedes (found haveList : List Framework) : Bool :=
  found.any (fun test =>
    test.canEmbed.any (fun name => haveList.any (fun fw => fw.name == name)))

/-- One state step of the elimination sweep of `match` (engine.ts lines
179-195), fuel-bounded.  The state is the working list plus the two loop
indices.  `splice(j,1); j--` followed by the loop's `j++` leaves `j`
unchanged; `splice(i,1); i--; break` followed by the outer `i++` leaves
`i` unchanged and restarts the inner loop at `j = 0`. -/
def eliminateGo : Nat → List (List Framework) → Nat → Nat → List (List Framework)
  | 0, l, _, _ => l
  | fuel+1, l, i, j =>
    if i < l.length then
      if j < l.length then
        if i == j then eliminateGo fuel l i (j+1)
        else if supercedes (l.getD i []) (l.getD j []) then
          eliminateGo fuel (l.eraseIdx j) i j
        else if supercedes (l.getD j []) (l.getD i []) then
          eliminateGo fuel (l.eraseIdx i) i 0
        else eliminateGo fuel l i (j+1)
      else eliminateGo fuel l (i+1) 0
    else l

/-- The elimination sweep on a candidate list.  Between two removals the
indices advance at most `(length+1)*(length+2)` times and at most `length`
removals happen, so this fuel exhausts every run. -/
def eliminate (l : List (List Framework)) : List (List Framework) :=
  eliminateGo ((l.length + 1) * (l.length + 2) * (l.length + 2)) l 0 0

/-- The leaf name of a chain, `chain[0].name` (engine.ts line 202); chains produced by the search are
never empty. -/
def leafName (c : List Framework) : String :=
  (c.head?.map Framework.name).getD ""

/-- Fuel sufficient for every terminating source run: the recursion depth
of `matchHelper` is bounded by the number of distinct rule entries. -/
def FrameworkMatcher.searchFuel (m : FrameworkMatcher) : Nat :=
  m.frameworkMap.length + 1

/-- Embedding of `FrameworkMatcher.match` (engine.ts lines 175-207); `match` is a
reserved word in Lean.  Search from the runtime, run the elimination
sweep, then: no chain is the valid empty outcome, one chain is the result,
more than one throws naming each chain's most-specific framework. -/
def FrameworkMatcher.matchFrameworks (m : FrameworkMatcher) : Except String (List Framework) :=
  let allMatches := m.matchHelper m.searchFuel m.runtime
  let remaining := eliminate allMatches
  match remaining with
  | [] => Except.ok []
  | [c] => Except.ok c
  | cs =>
    Except.error
      ("Matched multiple frameworks that are not known to embed each other: "
        ++ String.intercalate ", " (cs.map leafName))

/-- Framework `D` descends from framework `F` in a rule list: following `parent` links (by
name) upward from `D` reaches `F.name`. -/
inductive DescOf (fws : List Framework) : Framework → Framework → Prop
  | parent {f d : Framework} : d ∈ fws → d.parent = f.name → DescOf fws f d
  | step {f e d : Framework} : DescOf fws f e → d ∈ fws → d.parent = e.name → DescOf fws f d

/-- A downward path of the search: starting below `top`, every element is a
registered child of its predecessor and locally matches. -/
inductive DownPath (m : FrameworkMatcher) : String → List Framework → Prop
  | nil (top : String) : DownPath m top []
  | cons (top : String) (fw : Framework) (rest : List Framework) :
      fw.name ∈ childrenOf m top →
      List.lookup fw.name m.frameworkMap = some fw →
      localPred m fw = true →
      DownPath m fw.name rest →
      DownPath m top (fw :: rest)

/-! Generic lemmas about the association-list embedding of JS records. -/

/-! Concrete rule sets used to exercise the engine on closed inputs. -/

/-- File system of the two-level stack example: only `p.txt` exists. -/
def fs2 : String → Bool := fun p => p == "p.txt"

/-- Parent framework of the two-level stack: sits on the runtime and
requires `p.txt`. -/
def pFw : Framework := { name := "P", parent := "rt", requiredFiles := [FileReq.single "p.txt"] }

/-- Child framework of the two-level stack: sits on `P` and requires the
dependency `c-lib`. -/
def cFw : Framework := { name := "C", parent := "P", dependencies := [{ name := "c-lib" }] }

/-- Rule list of the two-level stack. -/
def fws2 : List Framework := [pFw, cFw]

/-- Dependency map of the two-level stack. -/
def deps2 : List (String × String) := [("c-lib", "1.0.0")]

/-- The matcher `FrameworkMatcher.make "rt" fs2 deps2 fws2` constructs. -/
def m2 : FrameworkMatcher :=
  { runtime := "rt", fs := fs2, dependencies := deps2,
    frameworkMap := buildFrameworkMap fws2, children := buildChildren fws2 }

/-- File system on which nothing exists. -/
def fsF : String → Bool := fun _ => false

/-- A framework named `F` whose file predicate is false. -/
def fShadow : Framework := { name := "F", parent := "rt", requiredFiles := [FileReq.single "nope"] }

/-- A second framework also named `F` with a vacuously true predicate; it
shadows `fShadow` in the name index (last assignment wins). -/
def fLive : Framework := { name := "F", parent := "rt" }

/-- A framework whose parent is the name `F`. -/
def dChild : Framework := { name := "D", parent := "F" }

/-- Rule list with a duplicated framework name. -/
def fws0 : List Framework := [fShadow, fLive, dChild]

/-- The matcher `FrameworkMatcher.make "rt" fsF [] fws0` constructs. -/
def m0 : FrameworkMatcher :=
  { runtime := "rt", fs := fsF, dependencies := [],
    frameworkMap := buildFrameworkMap fws0, children := buildChildren fws0 }

/-- A framework whose file predicate is false on `fsF`. -/
def fwBad : Framework := { name := "bad", parent := "rt", requiredFiles := [FileReq.single "missing.txt"] }

/-- A framework with a vacuously true predicate. -/
def fwGood : Framework := { name := "good", parent := "rt" }

/-- Well-formed rule list: distinct names, none equal to the runtime. -/
def fwsW : List Framework := [fwBad, fwGood]

/-- The matcher `FrameworkMatcher.make "rt" fsF [] fwsW` constructs. -/
def mW : FrameworkMatcher :=
  { runtime := "rt", fs := fsF, dependencies := [],
    frameworkMap := buildFrameworkMap fwsW, children := buildChildren fwsW }

/-- A matcher over an empty rule list. -/
def mEmpty : FrameworkMatcher :=
  { runtime := "rt", fs := fsF, dependencies := [], frameworkMap := [], children := [] }

/-- Chain head that declares it can embed `B`. -/
def aFw : Framework := { name := "A", parent := "rt", canEmbed := ["B"] }

/-- Chain head embedded by `A`. -/
def bFw : Framework := { name := "B", parent := "rt" }

/-- A framework declaring a single dependency on `react` with no version
constraint. -/
def reactFw : Framework := { name := "app", parent := "rt", dependencies := [{ name := "react" }] }

/-- A framework requiring the single file `a`. -/
def c6Fw : Framework := { name := "w", parent := "rt", requiredFiles := [FileReq.single "a"] }

/-- A framework with no requirements at all, for the construction witness. -/
def soloFw : Framework := { name := "solo", parent := "rt" }

/-- A detector result for the orchestration witness. -/
def cb0 : Codebase := { runtimeName := "nodejs", frameworkName := "next" }

theorem lookup_recordInsert (m : List (String × α)) (k q : String) (v : α) :
    List.lookup q (recordInsert m k v) = if q == k then some v else List.lookup q m := by
  cases h : q == k <;> simp [recordInsert, List.lookup, h]

theorem lookup_append (a b : List (String × α)) (k : String) :
    List.lookup k (a ++ b) =
      match List.lookup k a with
      | some v => some v
      | none => List.lookup k b := by
  induction a with
  | nil => simp
  | cons p t ih =>
    obtain ⟨pk, pv⟩ := p
    cases h : k == pk <;> simp [List.lookup, h, ih]

theorem lookup_mem {m : List (String × α)} {k : String} {v : α}
    (h : List.lookup k m = some v) : (k, v) ∈ m := by
  induction m with
  | nil => simp [List.lookup] at h
  | cons p t ih =>
    obtain ⟨pk, pv⟩ := p
    by_cases hk : k == pk
    · simp only [List.lookup, hk] at h
      cases h
      have : k = pk := by simpa using hk
      subst this
      exact List.mem_cons_self _ _
    · simp only [List.lookup, Bool.not_eq_true] at h hk
      simp only [hk] at h
      exact List.mem_cons_of_mem _ (ih h)

theorem lookup_mapPair (l : List Framework) (k : String) :
    List.lookup k (l.map (fun f => (f.name, f))) =
      l.find? (fun f => f.name == k) := by
  induction l with
  | nil => simp
  | cons a t ih =>
    cases h : a.name == k
    · have h' : (k == a.name) = false := by
        simp only [beq_eq_false_iff_ne] at h ⊢
        exact fun e => h e.symm
      simp [List.lookup, List.find?, h, h', ih]
    · have h' : (k == a.name) = true := by
        simp only [beq_iff_eq] at h ⊢
        exact h.symm
      simp [List.lookup, List.find?, h, h']

theorem buildFrameworkMap_eq (fws : List Framework) :
    buildFrameworkMap fws = (fws.reverse).map (fun f => (f.name, f)) := by
  suffices h : ∀ (l : List Framework) (acc : List (String × Framework)),
      l.foldl (fun m f => recordInsert m f.name f) acc
        = (l.reverse).map (fun f => (f.name, f)) ++ acc by
    simpa using h fws []
  intro l
  induction l with
  | nil => simp
  | cons a t ih =>
    intro acc
    rw [List.foldl_cons, show recordInsert acc a.name a = (a.name, a) :: acc from rfl, ih]
    simp

theorem frameworkMap_lookup_some {fws : List Framework} {k : String} {v : Framework}
    (h : List.lookup k (buildFrameworkMap fws) = some v) : v ∈ fws ∧ v.name = k := by
  rw [buildFrameworkMap_eq] at h
  have hm := lookup_mem h
  simp only [List.mem_map, List.mem_reverse] at hm
  obtain ⟨f, hf, he⟩ := hm
  cases he
  exact ⟨hf, rfl⟩

theorem frameworkMap_lookup_isSome (fws : List Framework) (k : String) :
    (List.lookup k (buildFrameworkMap fws)).isSome ↔ ∃ f ∈ fws, f.name = k := by
  rw [buildFrameworkMap_eq, lookup_mapPair]
  simp [List.find?_isSome]

theorem frameworkMap_lookup_nodup {fws : List Framework}
    (hnodup : (fws.map Framework.name).Nodup) {f : Framework} (hf : f ∈ fws) :
    List.lookup f.name (buildFrameworkMap fws) = some f := by
  rw [buildFrameworkMap_eq, lookup_mapPair]
  have hs : (fws.reverse.find? (fun g => g.name == f.name)).isSome := by
    simp only [List.find?_isSome]
    exact ⟨f, by simpa using hf, by simp⟩
  obtain ⟨g, hg⟩ := Option.isSome_iff_exists.mp hs
  have hgm := List.mem_of_find?_eq_some hg
  have hgp := List.find?_some hg
  have hgn : g.name = f.name := by simpa using hgp
  have : g = f :=
    List.inj_on_of_nodup_map hnodup (by simpa using hgm) hf hgn
  rw [hg, this]

theorem children_mem {fws : List Framework} {p n : String}
    (h : n ∈ (List.lookup p (buildChildren fws)).getD []) :
    ∃ f ∈ fws, f.name = n ∧ f.parent = p := by
  suffices hgen : ∀ (l : List Framework) (acc : List (String × List String)) (p n : String),
      n ∈ (List.lookup p (l.foldl
          (fun c f => recordInsert c f.parent (((List.lookup f.parent c).getD []) ++ [f.name]))
          acc)).getD [] →
        (∃ f ∈ l, f.name = n ∧ f.parent = p) ∨ n ∈ (List.lookup p acc).getD [] by
    have := hgen fws [] p n h
    rcases this with h1 | h2
    · exact h1
    · simp [List.lookup] at h2
  intro l
  induction l with
  | nil => intro acc p n h; exact Or.inr h
  | cons a t ih =>
    intro acc p n h
    simp only [List.foldl_cons] at h
    rcases ih _ p n h with h1 | h2
    · obtain ⟨f, hf, he⟩ := h1
      exact Or.inl ⟨f, List.mem_cons_of_mem _ hf, he⟩
    · rw [lookup_recordInsert] at h2
      by_cases hp : p == a.parent
      · simp only [hp, if_true, Option.getD_some, List.mem_append, List.mem_singleton] at h2
        have hpe : p = a.parent := by simpa using hp
        rcases h2 with h2 | h2
        · exact Or.inr (by rw [hpe]; exact h2)
        · exact Or.inl ⟨a, List.mem_cons_self _ _, h2.symm, hpe.symm⟩
      · simp only [Bool.not_eq_true] at hp
        simp only [hp, if_false] at h2
        exact Or.inr h2

theorem matchHelper_succ (m : FrameworkMatcher) (fuel : Nat) (name : String) :
    m.matchHelper (fuel+1) name =
      if name == m.runtime then
        (childrenOf m name).flatMap (fun c => m.matchHelper fuel c)
      else
        match List.lookup name m.frameworkMap with
        | none => []
        | some fw =>
          if localPred m fw then
            if ((childrenOf m name).flatMap (fun c => m.matchHelper fuel c)).isEmpty then
              [[fw]]
            else
              ((childrenOf m name).flatMap (fun c => m.matchHelper fuel c)).map
                (fun head => head ++ [fw])
          else [] := rfl

theorem detectLoop_some (l : List (Option Codebase)) (c : Codebase) :
    detectLoop l (some c) =
      if l.filterMap id = [] then Except.ok (some c)
      else Except.error "More than one runtime matched codebase" := by
  induction l with
  | nil => simp [detectLoop]
  | cons r t ih =>
    cases r with
    | none => simpa [detectLoop, List.filterMap_cons] using ih
    | some x => simp [detectLoop, List.filterMap_cons]

theorem detect_eq (l : List (Option Codebase)) :
    detect l =
      match l.filterMap id with
      | [] => Except.ok none
      | [c] => Except.ok (some c)
      | _ :: _ :: _ => Except.error "More than one runtime matched codebase" := by
  induction l with
  | nil => simp [detect, detectLoop]
  | cons r t ih =>
    cases r with
    | none => simpa [detect, detectLoop, List.filterMap_cons] using ih
    | some x =>
      show detectLoop t (some x) = _
      rw [detectLoop_some]
      cases h : t.filterMap id with
      | nil => simp [List.filterMap_cons, h]
      | cons y ys => simp [List.filterMap_cons, h]

theorem downPath_mem {m : FrameworkMatcher} {top : String} {l : List Framework}
    (h : DownPath m top l) : ∀ fw ∈ l,
      List.lookup fw.name m.frameworkMap = some fw ∧ localPred m fw = true := by
  induction h with
  | nil => intro fw hfw; simp at hfw
  | cons top fw rest hch hlk hpred hrest ih =>
    intro g hg
    rcases List.mem_cons.mp hg with h1 | h2
    · subst h1; exact ⟨hlk, hpred⟩
    · exact ih g h2

theorem matchHelper_downPath (m : FrameworkMatcher)
    (hkey : ∀ k fw, List.lookup k m.frameworkMap = some fw → fw.name = k)
    (hchild : ∀ p n, n ∈ childrenOf m p → (List.lookup n m.frameworkMap).isSome)
    (hnrt : ∀ k fw, List.lookup k m.frameworkMap = some fw → k ≠ m.runtime) :
    ∀ fuel name c, c ∈ m.matchHelper fuel name →
      (name ≠ m.runtime →
        ∃ fw rest, List.lookup name m.frameworkMap = some fw ∧ localPred m fw = true ∧
          c.reverse = fw :: rest ∧ DownPath m name rest) ∧
      (name = m.runtime → DownPath m m.runtime c.reverse) := by
  intro fuel
  induction fuel with
  | zero => intro name c hc; simp [FrameworkMatcher.matchHelper] at hc
  | succ fuel ih =>
    intro name c hc
    rw [matchHelper_succ] at hc
    cases hrt : name == m.runtime with
    | true =>
      have hname : name = m.runtime := by simpa using hrt
      rw [if_pos hrt] at hc
      rw [List.mem_flatMap] at hc
      obtain ⟨ch, hchm, hcc⟩ := hc
      obtain ⟨cfw, hcfw⟩ := Option.isSome_iff_exists.mp (hchild name ch hchm)
      have hchne : ch ≠ m.runtime := hnrt ch cfw hcfw
      obtain ⟨fw, rest, hlk, hpred, hrev, hdp⟩ := (ih ch c hcc).1 hchne
      refine ⟨fun hne => absurd hname hne, fun _ => ?_⟩
      rw [hrev]
      have hfwname : fw.name = ch := hkey ch fw hlk
      refine DownPath.cons m.runtime fw rest ?_ ?_ hpred ?_
      · rw [hfwname, ← hname]; exact hchm
      · rw [hfwname]; exact hlk
      · rw [hfwname]; exact hdp
    | false =>
      have hname : name ≠ m.runtime := by simpa using hrt
      rw [if_neg (by simp [hrt])] at hc
      cases hlk : List.lookup name m.frameworkMap with
      | none => simp only [hlk] at hc; simp at hc
      | some fw =>
        simp only [hlk] at hc
        cases hpred : localPred m fw with
        | false => rw [if_neg (by simp [hpred])] at hc; simp at hc
        | true =>
          rw [if_pos hpred] at hc
          cases hemp : ((childrenOf m name).flatMap (fun c => m.matchHelper fuel c)).isEmpty with
          | true =>
            rw [if_pos hemp] at hc
            simp only [List.mem_singleton] at hc
            subst hc
            exact ⟨fun _ => ⟨fw, [], rfl, hpred, by simp, DownPath.nil name⟩,
              fun h => absurd h hname⟩
          | false =>
            rw [if_neg (by simp [hemp])] at hc
            simp only [List.mem_map] at hc
            obtain ⟨head, hhead, hceq⟩ := hc
            rw [List.mem_flatMap] at hhead
            obtain ⟨ch, hchm, hcc⟩ := hhead
            obtain ⟨cfw0, hcfw0⟩ := Option.isSome_iff_exists.mp (hchild name ch hchm)
            have hchne : ch ≠ m.runtime := hnrt ch cfw0 hcfw0
            obtain ⟨cfw, rest, hclk, hcpred, hcrev, hcdp⟩ := (ih ch head hcc).1 hchne
            have hcname : cfw.name = ch := hkey ch cfw hclk
            refine ⟨fun _ => ⟨fw, cfw :: rest, rfl, hpred, ?_, ?_⟩,
              fun h => absurd h hname⟩
            · rw [← hceq]
              simp [List.reverse_append, hcrev]
            · refine DownPath.cons name cfw rest ?_ ?_ hcpred ?_
              · rw [hcname]; exact hchm
              · rw [hcname]; exact hclk
              · rw [hcname]; exact hcdp

theorem descOf_mem {fws : List Framework} {f d : Framework} (h : DescOf fws f d) : d ∈ fws := by
  cases h with
  | parent hd hp => exact hd
  | step hde hd hp => exact hd

theorem downPath_parent {m : FrameworkMatcher}
    (hglue : ∀ p n, n ∈ childrenOf m p → ∀ d : Framework,
        List.lookup n m.frameworkMap = some d → d.parent = p) :
    ∀ {top : String} {l : List Framework}, DownPath m top l →
      ∀ D ∈ l, D.parent = top ∨ ∃ P ∈ l, D.parent = P.name := by
  intro top l h
  induction h with
  | nil => intro D hD; simp at hD
  | cons top fw rest hch hlk hpred hrest ih =>
    intro D hD
    rcases List.mem_cons.mp hD with h1 | h2
    · subst h1
      exact Or.inl (hglue top D.name hch D hlk)
    · rcases ih D h2 with h3 | h3
      · exact Or.inr ⟨fw, List.mem_cons_self _ _, h3⟩
      · obtain ⟨P, hP, he⟩ := h3
        exact Or.inr ⟨P, List.mem_cons_of_mem _ hP, he⟩

theorem descExcluded (m : FrameworkMatcher) (fws : List Framework)
    (hmem : ∀ k fw, List.lookup k m.frameworkMap = some fw → fw ∈ fws)
    (hinj : ∀ f g, f ∈ fws → g ∈ fws → f.name = g.name → f = g)
    (hname : ∀ f ∈ fws, f.name ≠ m.runtime)
    (hglue : ∀ p n, n ∈ childrenOf m p → ∀ d : Framework,
        List.lookup n m.frameworkMap = some d → d.parent = p)
    (l : List Framework) (hdp : DownPath m m.runtime l)
    (F : Framework) (hF : F ∈ fws) (hpred : localPred m F = false) :
    F ∉ l ∧ ∀ D, DescOf fws F D → D ∉ l := by
  have hFnot : F ∉ l := by
    intro hFl
    have h2 := (downPath_mem hdp F hFl).2
    rw [hpred] at h2
    exact Bool.false_ne_true h2
  refine ⟨hFnot, ?_⟩
  have main : ∀ f d, DescOf fws f d → f ∈ fws → localPred m f = false → d ∉ l := by
    intro f d hdesc
    induction hdesc with
    | parent hd hp =>
      rename_i d2
      intro hf hpredf hdl
      rcases downPath_parent hglue hdp d2 hdl with h1 | h1
      · rw [hp] at h1
        exact hname f hf h1
      · obtain ⟨P, hPl, he⟩ := h1
        have hPf : P ∈ fws := hmem P.name P (downPath_mem hdp P hPl).1
        have heq : f = P := hinj f P hf hPf (hp.symm.trans he)
        have hfl : f ∈ l := heq ▸ hPl
        have h2 := (downPath_mem hdp f hfl).2
        rw [hpredf] at h2
        exact Bool.false_ne_true h2
    | step hde hd hp ihe =>
      rename_i e2 d2
      intro hf hpredf hdl
      rcases downPath_parent hglue hdp d2 hdl with h1 | h1
      · rw [hp] at h1
        exact hname e2 (descOf_mem hde) h1
      · obtain ⟨P, hPl, hePn⟩ := h1
        have hPf : P ∈ fws := hmem P.name P (downPath_mem hdp P hPl).1
        have heq : e2 = P := hinj e2 P (descOf_mem hde) hPf (hp.symm.trans hePn)
        exact absurd (heq ▸ hPl) (ihe hf hpredf)
  exact fun D hdesc => main F D hdesc hF hpred

theorem make_ok {rt : String} {fs : String → Bool} {deps : List (String × String)}
    {fws : List Framework} {m : FrameworkMatcher}
    (h : FrameworkMatcher.make rt fs deps fws = Except.ok m) :
    m.runtime = rt ∧ m.fs = fs ∧ m.dependencies = deps ∧
      m.frameworkMap = buildFrameworkMap fws ∧ m.children = buildChildren fws := by
  unfold FrameworkMatcher.make at h
  cases hf : fws.find? (fun f =>
      f.parent != rt && (List.lookup f.parent (buildFrameworkMap fws)).isNone) with
  | some f => simp only [hf] at h; exact Except.noConfusion h
  | none =>
    simp only [hf] at h
    cases h
    exact ⟨rfl, rfl, rfl, rfl, rfl⟩

theorem matchFrameworks_eq (m : FrameworkMatcher) :
    m.matchFrameworks =
      match eliminate (m.matchHelper m.searchFuel m.runtime) with
      | [] => Except.ok []
      | [c] => Except.ok c
      | cs =>
        Except.error
          ("Matched multiple frameworks that are not known to embed each other: "
            ++ String.intercalate ", " (cs.map leafName)) := rfl

/-- C9: for every chain, looking a key up in the merged variable map gives
the value of the first (most specific, nearest index 0) framework that
defines it — the most specific framework wins over its ancestors, and a
key no framework defines is absent. -/
theorem C9_vars_merge (fws : List Framework) (k : String) :
    List.lookup k (vars fws) = fws.findSome? (fun fw => List.lookup k fw.vars) := by
  induction fws with
  | nil => simp [vars]
  | cons fw t ih =>
    have hv : vars (fw :: t) = fw.vars ++ vars t := rfl
    rw [hv, lookup_append, List.findSome?_cons, ih]
    cases List.lookup k fw.vars <;> rfl

/-- C10: on the mock file system, `read` succeeds with exactly the mapped
content iff `exists` is true, and `read` fails with an ENOENT-coded error
iff `exists` is false — the two methods never disagree about a path. -/
theorem C10_mock_consistency (mock : List (String × String)) (path : String) :
    (mockExists mock path = true ↔
      ∃ v, List.lookup path mock = some v ∧ mockRead mock path = Except.ok v) ∧
    (mockExists mock path = false ↔
      ∃ e, mockRead mock path = Except.error e ∧ e.code = some "ENOENT") := by
  cases hl : List.lookup path mock with
  | none => simp [mockExists, mockRead, hl]
  | some v => simp [mockExists, mockRead, hl]

theorem C10_witness : mockExists [("a", "x")] "a" = true :=
  (C10_mock_consistency [("a", "x")] "a").1.mpr ⟨"x", rfl, rfl⟩

/-- C7: the runtime orchestration returns nothing when no detector
matched, the unique result when exactly one matched, and fails when two or
more matched. -/
theorem C7_detect (results : List (Option Codebase)) :
    (results.filterMap id = [] → detect results = Except.ok none) ∧
    (∀ cb, results.filterMap id = [cb] → detect results = Except.ok (some cb)) ∧
    (2 ≤ (results.filterMap id).length →
      detect results = Except.error "More than one runtime matched codebase") := by
  refine ⟨fun h => ?_, fun cb h => ?_, fun h => ?_⟩
  · rw [detect_eq, h]
  · rw [detect_eq, h]
  · rw [detect_eq]
    cases he : results.filterMap id with
    | nil => rw [he] at h; simp at h
    | cons c1 t =>
      cases t with
      | nil =>
        rw [he] at h
        simp at h
      | cons c2 t2 => rfl

theorem C7_witness : detect [some cb0, none] = Except.ok (some cb0) :=
  (C7_detect [some cb0, none]).2.1 cb0 rfl

/-- C5 (amended): the dependency predicate holds iff every declared
dependency name is mapped to a non-empty version string; a key bound to
the empty string is falsy in JS and therefore treated as absent. -/
theorem C5_dependency_predicate (deps : List (String × String)) (fw : Framework) :
    dependencyPred deps fw = true ↔
      ∀ d ∈ fw.dependencies, ∃ v, List.lookup d.name deps = some v ∧ v ≠ "" := by
  rw [dependencyPred, List.all_eq_true]
  constructor
  · intro h d hd
    have h2 := h d hd
    cases hl : List.lookup d.name deps with
    | none => rw [hl] at h2; simp [versionTruthy] at h2
    | some v =>
      rw [hl] at h2
      refine ⟨v, rfl, ?_⟩
      simpa [versionTruthy] using h2
  · intro h d hd
    obtain ⟨v, hv, hne⟩ := h d hd
    show versionTruthy (List.lookup d.name deps) = true
    rw [hv]
    simpa [versionTruthy] using hne

/-- C5 does not hold as stated: `react` is present as a key of the
dependency map, yet the predicate is false, because its empty version
string is falsy. -/
theorem C5_counterexample :
    (∀ d ∈ reactFw.dependencies, (List.lookup d.name [("react", "")]).isSome = true) ∧
    dependencyPred [("react", "")] reactFw = false := by
  decide

theorem C5_witness : dependencyPred [("react", "18.2.0")] reactFw = true :=
  (C5_dependency_predicate [("react", "18.2.0")] reactFw).mpr (by
    intro d hd
    simp only [reactFw, List.mem_singleton] at hd
    subst hd
    exact ⟨"18.2.0", rfl, by decide⟩)

/-- C6: the file predicate conjoins the `requiredFiles` entries — a single
path must exist, an alternative set needs at least one of its paths to
exist — and an empty list is vacuously true. -/
theorem C6_file_predicate (fs : String → Bool) (fw : Framework) :
    (filePred fs fw = true ↔
      ∀ req ∈ fw.requiredFiles,
        (∀ p, req = FileReq.single p → fs p = true) ∧
        (∀ ps, req = FileReq.oneOf ps → ∃ p ∈ ps, fs p = true)) ∧
    (fw.requiredFiles = [] → filePred fs fw = true) := by
  constructor
  · rw [filePred, List.all_eq_true]
    constructor
    · intro h req hreq
      have h2 := h req hreq
      constructor
      · intro p hp
        subst hp
        simpa using h2
      · intro ps hp
        subst hp
        simpa [List.any_eq_true] using h2
    · intro h req hreq
      cases req with
      | single p => simpa using (h _ hreq).1 p rfl
      | oneOf ps =>
        have h2 := (h _ hreq).2 ps rfl
        simpa [List.any_eq_true] using h2
  · intro h
    rw [filePred, h]
    rfl

theorem C6_witness : filePred (fun p => p == "a") c6Fw = true :=
  (C6_file_predicate (fun p => p == "a") c6Fw).1.mpr (by
    intro req hreq
    simp only [c6Fw, List.mem_singleton] at hreq
    subst hreq
    refine ⟨?_, ?_⟩
    · intro p hp
      injection hp with h
      subst h
      decide
    · intro ps hp
      exact absurd hp (by simp))

/-- C8: matcher construction fails iff some framework's parent is neither
the runtime name nor the name of a framework in the list, and succeeds
whenever every parent is the runtime or a known framework name. -/
theorem C8_construction (rt : String) (fs : String → Bool)
    (deps : List (String × String)) (fws : List Framework) :
    ((∃ e, FrameworkMatcher.make rt fs deps fws = Except.error e) ↔
      ∃ f ∈ fws, f.parent ≠ rt ∧ ∀ g ∈ fws, g.name ≠ f.parent) ∧
    ((∀ f ∈ fws, f.parent = rt ∨ ∃ g ∈ fws, g.name = f.parent) →
      ∃ m, FrameworkMatcher.make rt fs deps fws = Except.ok m) := by
  have hpred : ∀ f : Framework,
      ((f.parent != rt && (List.lookup f.parent (buildFrameworkMap fws)).isNone) = true) ↔
        (f.parent ≠ rt ∧ ∀ g ∈ fws, g.name ≠ f.parent) := by
    intro f
    rw [Bool.and_eq_true, bne_iff_ne, Option.isNone_iff_eq_none]
    constructor
    · rintro ⟨h1, h2⟩
      refine ⟨h1, fun g hg he => ?_⟩
      have hs : (List.lookup f.parent (buildFrameworkMap fws)).isSome := by
        rw [frameworkMap_lookup_isSome]
        exact ⟨g, hg, he⟩
      rw [h2] at hs
      simp at hs
    · rintro ⟨h1, h2⟩
      refine ⟨h1, ?_⟩
      cases hl : List.lookup f.parent (buildFrameworkMap fws) with
      | none => rfl
      | some v =>
        have hv := frameworkMap_lookup_some hl
        exact absurd hv.2 (h2 v hv.1)
  constructor
  · constructor
    · rintro ⟨e, he⟩
      unfold FrameworkMatcher.make at he
      cases hf : fws.find? (fun f =>
          f.parent != rt && (List.lookup f.parent (buildFrameworkMap fws)).isNone) with
      | none => simp only [hf] at he; exact Except.noConfusion he
      | some f =>
        have hpf := @List.find?_some Framework
          (fun f => f.parent != rt && (List.lookup f.parent (buildFrameworkMap fws)).isNone) f fws hf
        exact ⟨f, List.mem_of_find?_eq_some hf, (hpred f).mp hpf⟩
    · rintro ⟨f, hf, hcond⟩
      have hs : (fws.find? (fun f =>
          f.parent != rt && (List.lookup f.parent (buildFrameworkMap fws)).isNone)).isSome := by
        rw [List.find?_isSome]
        exact ⟨f, hf, (hpred f).mpr hcond⟩
      obtain ⟨g, hg⟩ := Option.isSome_iff_exists.mp hs
      refine ⟨"Framework " ++ g.name ++ " has unkonwn parent " ++ g.parent, ?_⟩
      unfold FrameworkMatcher.make
      simp only [hg]
  · intro h
    have hnone : fws.find? (fun f =>
        f.parent != rt && (List.lookup f.parent (buildFrameworkMap fws)).isNone) = none := by
      rw [List.find?_eq_none]
      intro f hf hc
      obtain ⟨h1, h2⟩ := (hpred f).mp hc
      rcases h f hf with h3 | ⟨g, hg, he⟩
      · exact h1 h3
      · exact h2 g hg he
    refine ⟨FrameworkMatcher.mk rt fs deps (buildFrameworkMap fws) (buildChildren fws), ?_⟩
    unfold FrameworkMatcher.make
    simp only [hnone]

theorem C8_witness : ∃ m, FrameworkMatcher.make "rt" fsF [] [soloFw] = Except.ok m :=
  (C8_construction "rt" fsF [] [soloFw]).2 (by
    intro f hf
    simp only [List.mem_singleton] at hf
    subst hf
    exact Or.inl rfl)

theorem elimGo_diag (fuel fuel2 : Nat) (hf : fuel = fuel2 + 1)
    (l : List (List Framework)) (i : Nat) (h : i < l.length) :
    eliminateGo fuel l i i = eliminateGo fuel2 l i (i+1) := by
  subst hf
  rw [eliminateGo]
  rw [if_pos h, if_pos h, if_pos (show (i == i) = true by simp)]

theorem elimGo_supersede (fuel fuel2 : Nat) (hf : fuel = fuel2 + 1)
    (l : List (List Framework)) (i j : Nat)
    (hi : i < l.length) (hj : j < l.length) (hne : (i == j) = false)
    (hs : supercedes (l.getD i []) (l.getD j []) = true) :
    eliminateGo fuel l i j = eliminateGo fuel2 (l.eraseIdx j) i j := by
  subst hf
  rw [eliminateGo]
  rw [if_pos hi, if_pos hj, if_neg (by simp [hne]), if_pos hs]

/-- C4: chain `A` supersedes chain `B` iff some framework of `A` lists, in
`canEmbed`, the name of some framework of `B`; whenever the chain at `i`
supersedes the chain at `j` the sweep removes index `j` from the working
set; and for exactly the two chains `[A]` and `[B]` with `A` embedding `B`
and not conversely, resolution returns exactly `[A]`. -/
theorem C4_supersede :
    (∀ A B : List Framework, supercedes A B = true ↔
      ∃ fa ∈ A, ∃ n ∈ fa.canEmbed, ∃ fb ∈ B, fb.name = n) ∧
    (∀ (fuel : Nat) (l : List (List Framework)) (i j : Nat),
      i < l.length → j < l.length → (i == j) = false →
      supercedes (l.getD i []) (l.getD j []) = true →
      eliminateGo (fuel+1) l i j = eliminateGo fuel (l.eraseIdx j) i j) ∧
    (∀ A B : Framework, B.name ∈ A.canEmbed → A.name ∉ B.canEmbed →
      eliminate [[A], [B]] = [[A]]) := by
  have hsup : ∀ A B : List Framework, supercedes A B = true ↔
      ∃ fa ∈ A, ∃ n ∈ fa.canEmbed, ∃ fb ∈ B, fb.name = n := by
    intro A B
    simp [supercedes, List.any_eq_true]
  refine ⟨hsup, fun fuel l i j hi hj hne hs => elimGo_supersede (fuel+1) fuel rfl l i j hi hj hne hs, ?_⟩
  intro A B hAB hBA
  have h1 : supercedes [A] [B] = true :=
    (hsup [A] [B]).mpr ⟨A, List.mem_singleton_self _, B.name, hAB, B, List.mem_singleton_self _, rfl⟩
  have h2 : supercedes [B] [A] = false := by
    cases hs : supercedes [B] [A] with
    | false => rfl
    | true =>
      obtain ⟨fb, hfb, n, hn, fa, hfa, he⟩ := (hsup [B] [A]).mp hs
      simp only [List.mem_singleton] at hfb hfa
      subst hfb; subst hfa
      exact absurd (he ▸ hn) hBA
  show eliminateGo 48 [[A], [B]] 0 0 = [[A]]
  simp only [elimGo_diag 48 47 (by norm_num) [[A], [B]] 0 (by norm_num)]
  simp only [elimGo_supersede 47 46 (by norm_num) [[A], [B]] 0 (0+1) (by norm_num) (by norm_num)
    (by decide) (show supercedes ([[A], [B]].getD 0 []) ([[A], [B]].getD (0+1) []) = true from h1)]
  simp only [show [[A], [B]].eraseIdx (0+1) = [[A]] from rfl]
  exact rfl

theorem C4_witness : eliminate [[aFw], [bFw]] = [[aFw]] :=
  C4_supersede.2.2 aFw bFw (by decide) (by decide)

/-- C3: after the elimination sweep, `match` returns the empty result when
no chain survives, the unique chain when exactly one survives, and fails
with the ambiguity error naming each surviving chain's most-specific
(index 0) framework when two or more survive. -/
theorem C3_final_decision (m : FrameworkMatcher) :
    (eliminate (m.matchHelper m.searchFuel m.runtime) = [] →
      m.matchFrameworks = Except.ok []) ∧
    (∀ c, eliminate (m.matchHelper m.searchFuel m.runtime) = [c] →
      m.matchFrameworks = Except.ok c) ∧
    (2 ≤ (eliminate (m.matchHelper m.searchFuel m.runtime)).length →
      m.matchFrameworks =
        Except.error
          ("Matched multiple frameworks that are not known to embed each other: "
            ++ String.intercalate ", "
              ((eliminate (m.matchHelper m.searchFuel m.runtime)).map leafName))) := by
  refine ⟨fun h => ?_, fun c h => ?_, fun h => ?_⟩
  · rw [matchFrameworks_eq, h]
  · rw [matchFrameworks_eq, h]
  · rw [matchFrameworks_eq]
    cases he : eliminate (m.matchHelper m.searchFuel m.runtime) with
    | nil => rw [he] at h; simp at h
    | cons c1 t =>
      cases t with
      | nil => rw [he] at h; simp at h
      | cons c2 t2 => rfl

theorem C3_witness : mEmpty.matchFrameworks = Except.ok [] :=
  (C3_final_decision mEmpty).1 rfl

/-- C1: at a non-runtime node whose local predicate holds, the search
returns the single chain `[self]` when the children contributed no chain
(or there are none), and otherwise exactly one chain per child chain, each
being that child chain with the node appended at the end; in particular
the two-level stack `C` on `P` on the runtime matches as exactly the chain
`[C, P]`, most-specific-first. -/
theorem C1_matchHelper_step :
    (∀ (m : FrameworkMatcher) (fuel : Nat) (name : String) (fw : Framework)
        (paths : List (List Framework)),
      name ≠ m.runtime →
      List.lookup name m.frameworkMap = some fw →
      localPred m fw = true →
      paths = (childrenOf m name).flatMap (fun c => m.matchHelper fuel c) →
      ((paths = [] → m.matchHelper (fuel+1) name = [[fw]]) ∧
       (paths ≠ [] →
         (m.matchHelper (fuel+1) name).length = paths.length ∧
         ∀ i, i < paths.length →
           (m.matchHelper (fuel+1) name).getD i [] = paths.getD i [] ++ [fw]))) ∧
    m2.matchFrameworks = Except.ok [cFw, pFw] := by
  constructor
  · intro m fuel name fw paths hne hlk hpred hpaths
    rw [matchHelper_succ]
    rw [if_neg (by simp [hne])]
    simp only [hlk]
    rw [if_pos hpred]
    rw [← hpaths]
    constructor
    · intro h0
      rw [if_pos (by simp [h0])]
    · intro hne2
      rw [if_neg (by simp [List.isEmpty_iff, hne2])]
      refine ⟨by simp, ?_⟩
      intro i hi
      simp [List.getD_eq_getElem?_getD, List.getElem?_map, List.getElem?_eq_getElem hi]
  · rfl

theorem C1_witness : m2.matchHelper 2 "C" = [[cFw]] :=
  (C1_matchHelper_step.1 m2 1 "C" cFw [] (by decide) (by decide) (by decide)
    (by decide)).1 rfl

/-- C2 (amended): in a rule set whose framework names are pairwise
distinct and none equal to the runtime name, a framework whose dependency
or file predicate is false contributes nothing to the search: no produced
chain contains it, and no produced chain contains any of its descendants,
whatever fuel the search runs with. -/
theorem C2_pruning_subtree (rt : String) (fs : String → Bool)
    (deps : List (String × String)) (fws : List Framework) (m : FrameworkMatcher)
    (hmk : FrameworkMatcher.make rt fs deps fws = Except.ok m)
    (hnodup : (fws.map Framework.name).Nodup)
    (hrt : ∀ f ∈ fws, f.name ≠ rt)
    (F : Framework) (hF : F ∈ fws) (hpredF : localPred m F = false)
    (fuel : Nat) (c : List Framework) (hc : c ∈ m.matchHelper fuel rt) :
    F ∉ c ∧ ∀ D, DescOf fws F D → D ∉ c := by
  obtain ⟨hr, hfs, hdeps, hfm, hch⟩ := make_ok hmk
  have hinj : ∀ f g : Framework, f ∈ fws → g ∈ fws → f.name = g.name → f = g :=
    fun f g hf hg he => List.inj_on_of_nodup_map hnodup hf hg he
  have hmem : ∀ k fw, List.lookup k m.frameworkMap = some fw → fw ∈ fws := by
    intro k fw h
    rw [hfm] at h
    exact (frameworkMap_lookup_some h).1
  have hkey : ∀ k fw, List.lookup k m.frameworkMap = some fw → fw.name = k := by
    intro k fw h
    rw [hfm] at h
    exact (frameworkMap_lookup_some h).2
  have hnrt : ∀ k fw, List.lookup k m.frameworkMap = some fw → k ≠ m.runtime := by
    intro k fw h
    rw [hfm] at h
    have h2 := frameworkMap_lookup_some h
    rw [hr, ← h2.2]
    exact hrt fw h2.1
  have hchild : ∀ p n, n ∈ childrenOf m p → (List.lookup n m.frameworkMap).isSome := by
    intro p n h
    simp only [childrenOf, hch] at h
    obtain ⟨f, hf2, hfn, _⟩ := children_mem h
    rw [hfm, frameworkMap_lookup_isSome]
    exact ⟨f, hf2, hfn⟩
  have hglue : ∀ p n, n ∈ childrenOf m p → ∀ d : Framework,
      List.lookup n m.frameworkMap = some d → d.parent = p := by
    intro p n h d hd
    simp only [childrenOf, hch] at h
    obtain ⟨f, hf2, hfn, hfp⟩ := children_mem h
    rw [hfm] at hd
    have h2 := frameworkMap_lookup_some hd
    have heq : f = d := hinj f d hf2 h2.1 (hfn.trans h2.2.symm)
    rw [← heq]
    exact hfp
  have hc2 : c ∈ m.matchHelper fuel m.runtime := by rw [hr]; exact hc
  have hdp : DownPath m m.runtime c.reverse :=
    (matchHelper_downPath m hkey hchild hnrt fuel m.runtime c hc2).2 rfl
  have hex := descExcluded m fws hmem hinj (by rw [hr]; exact hrt) hglue
    c.reverse hdp F hF hpredF
  exact ⟨fun h => hex.1 (List.mem_reverse.mpr h),
    fun D hD h => (hex.2 D hD) (List.mem_reverse.mpr h)⟩

theorem C2_witness : fwBad ∉ ([fwGood] : List Framework) :=
  (C2_pruning_subtree "rt" fsF [] fwsW mW rfl (by decide) (by decide) fwBad (by decide)
    (by decide) 2 [fwGood] (by decide)).1

/-- C2 as frozen fails on rule sets with duplicated framework names: in
`fws0` the predicate of `fShadow` (named `F`) is false, `dChild` descends
from it (`dChild.parent = fShadow.name`), yet the search still produces a
chain containing `dChild`, because the second record named `F` shadows
`fShadow` in the name index while both occupy the same children slot. -/
theorem C2_counterexample :
    FrameworkMatcher.make "rt" fsF [] fws0 = Except.ok m0 ∧
    localPred m0 fShadow = false ∧
    DescOf fws0 fShadow dChild ∧
    [dChild, fLive] ∈ m0.matchHelper 3 "rt" ∧
    dChild ∈ [dChild, fLive] :=
  ⟨rfl, by decide, DescOf.parent (by decide) rfl, by decide, by decide⟩
